import Mathlib

/-!
Verification of the text-search core of the repository
(src/providers/google_chat/utils/search_manager.py).

Embedding conventions:
* Python strings are embedded as `List Char`; Python `str.lower` is the
  character-wise `Char.toLower`.
* Python floats are embedded as exact rationals (`ℚ`); the decimal literals
  0.6, 0.2, 0.9, 1.2 of the source appear as 6/10, 2/10, 9/10, 12/10.
* `unicodedata.normalize("NFKD", s)` is external library code; it is kept
  abstract as a function parameter `nfkd : List Char → List Char`.  Theorems
  about concrete ASCII queries assume `nfkd q = q`, which is a true fact of
  NFKD on ASCII text.
* The `re` regular-expression engine is kept abstract as a `RegexEngine`:
  `compile` returns `none` exactly when `re.compile` raises `re.error`,
  and otherwise yields the list of start indices of the non-overlapping
  matches that `finditer` produces (each start index is at most the length
  of the searched text, recorded in the field `matchesWithin`).
  The call `re.sub(re.escape(c), repl, s, flags=re.IGNORECASE)` performed by
  the source is a case-insensitive literal replacement of every occurrence
  of `c` (the replacement strings produced by the source contain no escape
  sequences that `re.sub` would rewrite), and is embedded as such (`subCI`).
* Python dicts that the code iterates over preserve insertion order; they are
  embedded as association lists in insertion order.
-/

/-! ### Characters that are awkward to spell directly -/

/-- The ASCII apostrophe. -/
def apos : Char := Char.ofNat 39

/-- The right single quotation mark (U+2019). -/
def rsq : Char := Char.ofNat 0x2019

/-- The left single quotation mark (U+2018). -/
def lsq : Char := Char.ofNat 0x2018

/-- The backslash. -/
def bslash : Char := Char.ofNat 92

/-- Conversion from a Lean string literal to the embedding of Python strings. -/
def str (s : String) : List Char := s.data

/-! ### Python string primitives -/

/-- Character-wise lower-casing, embedding Python `str.lower`. -/
def lcLower (s : List Char) : List Char := s.map Char.toLower

/-- The two `replace` calls folding smart quotes into ASCII apostrophes:
`s.replace(u2019, apos).replace(u2018, apos)`, which, both being
single-character replacements, amount to a character-wise map. -/
def foldQuotes (s : List Char) : List Char :=
  s.map (fun c => if c = rsq then apos else if c = lsq then apos else c)

/-- `unicodedata.normalize("NFKD", s)` followed by the smart-quote folding:
the normalization step applied to both queries and message texts. -/
def pyNormalize (nfkd : List Char → List Char) (s : List Char) : List Char :=
  foldQuotes (nfkd s)

/-- First index at which `sub` occurs in the scanned string, if any. -/
def findSub (sub : List Char) : List Char → Option Nat
  | [] => if sub.isPrefixOf ([] : List Char) then some 0 else none
  | c :: t => if sub.isPrefixOf (c :: t) then some 0 else (findSub sub t).map (· + 1)

/-- Python `sub in s` (substring containment; the empty string is contained
in every string). -/
def substrB (sub s : List Char) : Bool := (findSub sub s).isSome

/-- Python `s.find(sub)`: first index of `sub` in `s`, `-1` when absent. -/
def pyFind (s sub : List Char) : Int :=
  match findSub sub s with
  | some n => (n : Int)
  | none => -1

/-- Scanner for `pyCount`: the `Nat` argument is the number of characters
still to be skipped after a match (matches are counted non-overlapping,
left to right, as Python `str.count` does). -/
def countAux (sub : List Char) : List Char → Nat → Nat
  | [], _ => 0
  | _ :: t, k + 1 => countAux sub t k
  | c :: t, 0 =>
    if sub.isPrefixOf (c :: t) then 1 + countAux sub t (sub.length - 1)
    else countAux sub t 0

/-- Python `s.count(sub)`: number of non-overlapping occurrences; for the
empty pattern Python returns `len(s) + 1`. -/
def pyCount (s sub : List Char) : Nat :=
  if sub.isEmpty then s.length + 1 else countAux sub s 0

/-- Scanner for `pyReplace`; the `Nat` argument is the number of characters
still to be dropped after an emitted replacement. -/
def pyReplaceAux (old new : List Char) : List Char → Nat → List Char
  | [], _ => []
  | _ :: t, k + 1 => pyReplaceAux old new t k
  | c :: t, 0 =>
    if old.isPrefixOf (c :: t) then new ++ pyReplaceAux old new t (old.length - 1)
    else c :: pyReplaceAux old new t 0

/-- Python `s.replace(old, new)`: replaces every non-overlapping occurrence,
left to right.  For the empty `old`, Python inserts `new` before every
character and at the end. -/
def pyReplace (s old new : List Char) : List Char :=
  if old.isEmpty then new ++ s.flatMap (fun c => c :: new)
  else pyReplaceAux old new s 0

/-- Case-insensitive prefix test (both sides lowered character-wise). -/
def matchCI (pat s : List Char) : Bool := (lcLower pat).isPrefixOf (lcLower s)

/-- Scanner for `subCI`. -/
def subCIAux (pat repl : List Char) : List Char → Nat → List Char
  | [], _ => []
  | _ :: t, k + 1 => subCIAux pat repl t k
  | c :: t, 0 =>
    if matchCI pat (c :: t) then repl ++ subCIAux pat repl t (pat.length - 1)
    else c :: subCIAux pat repl t 0

/-- Embedding of `re.sub(re.escape(pat), repl, s, flags=re.IGNORECASE)` for a
non-empty literal `pat` whose replacement string `repl` contains no template
escapes: every case-insensitive occurrence of `pat` is replaced by `repl`,
left to right, non-overlapping. -/
def subCI (pat repl s : List Char) : List Char := subCIAux pat repl s 0

/-- The characters escaped by Python 3.7+ `re.escape`. -/
def reSpecialChar (c : Char) : Bool :=
  c ∈ (['(', ')', '[', ']', Char.ofNat 123, Char.ofNat 125, '?', '*', '+', '-',
        '|', '^', '$', bslash, '.', '&', '~', '#', ' ', Char.ofNat 9,
        Char.ofNat 10, Char.ofNat 13, Char.ofNat 11, Char.ofNat 12] : List Char)

/-- Python `re.escape`: prefixes a backslash to every special character. -/
def reEscape (s : List Char) : List Char :=
  s.flatMap (fun c => if reSpecialChar c then [bslash, c] else [c])

/-- Python `s.strip()`: removes leading and trailing whitespace. -/
def pyStrip (s : List Char) : List Char :=
  ((s.dropWhile Char.isWhitespace).reverse.dropWhile Char.isWhitespace).reverse

/-! ### The data model -/

/-- A message record.  The code reads exactly two fields, both defaulting to
the empty string when absent: `msg.get("text", "")` and `msg.get("name", "")`,
so an absent field is represented by the empty string. -/
structure Msg where
  text : List Char
  name : List Char
deriving DecidableEq

/-- Per-mode `options` mapping (only read for the regex mode); `none` fields
are absent keys, read through the documented defaults. -/
structure RegexOptions where
  ignoreCase : Option Bool
  dotAll : Option Bool
  unicodeOpt : Option Bool
  maxPatternLength : Option Nat
deriving DecidableEq

/-- A value of the `search_modes` dict of a constructed `SearchManager`:
the mode's configuration entry. -/
structure ModeEntry where
  enabled : Bool
  weight : Option ℚ
  options : RegexOptions
deriving DecidableEq

/-- The state of a constructed `SearchManager`: its `search_modes` dict
(an insertion-ordered association list) and the fields of the `search`
section of its configuration that the search paths read. -/
structure SearchManager where
  searchModes : List (List Char × ModeEntry)
  defaultMode : Option (List Char)
  hybridWeightExact : Option ℚ
  hybridWeightRegex : Option ℚ

/-- `self.search_modes.get(name)`. -/
def lookupMode (sm : SearchManager) (name : List Char) : Option ModeEntry :=
  (sm.searchModes.find? (fun p => p.1 == name)).map Prod.snd

/-- `self.search_modes.get(name, {}).get("weight", 1.0)`. -/
def modeWeight (sm : SearchManager) (name : List Char) : ℚ :=
  ((lookupMode sm name).bind ModeEntry.weight).getD 1

/-- `self.search_modes.get("regex", {}).get("options", {})`. -/
def modeOptions (sm : SearchManager) : RegexOptions :=
  match lookupMode sm (str "regex") with
  | some e => e.options
  | none => ⟨none, none, none, none⟩

/-- `get_default_mode`: the configured default, with `semantic` downgraded
to `exact`. -/
def get_default_mode (sm : SearchManager) : List Char :=
  let d := sm.defaultMode.getD (str "exact")
  if d == str "semantic" then str "exact" else d

/-! ### Sorting

`results.sort(key=lambda x: x[0], reverse=True)` is a stable sort,
non-increasing in the score; a stable sort is uniquely determined by the
comparator, so it is embedded as a stable insertion sort. -/

/-- The `reverse=True` comparison on scored results: `a` may precede `b`
iff the score of `b` does not exceed the score of `a`. -/
def scoreGe (a b : ℚ × Msg) : Prop := b.1 ≤ a.1

instance : DecidableRel scoreGe := fun a b => inferInstanceAs (Decidable (b.1 ≤ a.1))

instance : IsTotal (ℚ × Msg) scoreGe := ⟨fun a b => le_total b.1 a.1⟩

instance : IsTrans (ℚ × Msg) scoreGe := ⟨fun _ _ _ hab hbc => le_trans hbc hab⟩

/-- `results.sort(key=lambda x: x[0], reverse=True)`. -/
def sortDesc (l : List (ℚ × Msg)) : List (ℚ × Msg) := List.insertionSort scoreGe l

/-! ### The exact-mode contraction tables -/

/-- The twelve contracted forms. -/
def wDont : List Char := str "don" ++ apos :: str "t"

def wDidnt : List Char := str "didn" ++ apos :: str "t"

def wIsnt : List Char := str "isn" ++ apos :: str "t"

def wWasnt : List Char := str "wasn" ++ apos :: str "t"

def wCant : List Char := str "can" ++ apos :: str "t"

def wCouldnt : List Char := str "couldn" ++ apos :: str "t"

def wWont : List Char := str "won" ++ apos :: str "t"

def wWouldnt : List Char := str "wouldn" ++ apos :: str "t"

def wArent : List Char := str "aren" ++ apos :: str "t"

def wWerent : List Char := str "weren" ++ apos :: str "t"

def wHavent : List Char := str "haven" ++ apos :: str "t"

def wHadnt : List Char := str "hadn" ++ apos :: str "t"

/-- The literal `contraction_pairs` dict of `_exact_search`. -/
def contractionPairsBase : List (List Char × List (List Char)) :=
  [(wDont, [wDidnt, str "do not", str "did not"]),
   (wDidnt, [wDont, str "did not", str "do not"]),
   (wIsnt, [wWasnt, str "is not", str "was not"]),
   (wWasnt, [wIsnt, str "was not", str "is not"]),
   (wCant, [wCouldnt, str "cannot", str "could not"]),
   (wCouldnt, [wCant, str "could not", str "cannot"]),
   (wWont, [wWouldnt, str "will not", str "would not"]),
   (wWouldnt, [wWont, str "would not", str "will not"]),
   (wArent, [wWerent, str "are not", str "were not"]),
   (wWerent, [wArent, str "were not", str "are not"]),
   (wHavent, [wHadnt, str "have not", str "had not"]),
   (wHadnt, [wHavent, str "had not", str "have not"])]

/-- `expanded_to_contraction[variant].append(contraction)`, creating the key
at the end of the dict when absent. -/
def addExpanded (t : List (List Char × List (List Char))) (key c : List Char) :
    List (List Char × List (List Char)) :=
  match t with
  | [] => [(key, [c])]
  | (k, vs) :: rest =>
    if k == key then (k, vs ++ [c]) :: rest else (k, vs) :: addExpanded rest key c

/-- The `expanded_to_contraction` dict: expanded (multi-word) variants mapped
back to their contractions, in dict insertion order. -/
def expandedToContraction : List (List Char × List (List Char)) :=
  contractionPairsBase.foldl
    (fun acc p =>
      p.2.foldl (fun acc v => if v.contains ' ' then addExpanded acc v p.1 else acc) acc)
    []

/-- `contraction_pairs.update(expanded_to_contraction)`: none of the expanded
keys collides with a contraction key, so the update appends them. -/
def contractionPairs : List (List Char × List (List Char)) :=
  contractionPairsBase ++ expandedToContraction

/-- The `alternatives` list of `_exact_search`: the lowercased query first,
then, for every table entry occurring in the query, the replacement of all
its occurrences by each listed variant, deduplicated. -/
def buildAlternatives (queryLower : List Char) : List (List Char) :=
  contractionPairs.foldl
    (fun alts p =>
      if substrB (lcLower p.1) queryLower then
        p.2.foldl
          (fun alts v =>
            let altQuery := pyReplace queryLower (lcLower p.1) (lcLower v)
            if altQuery != queryLower && !(alts.contains altQuery) then alts ++ [altQuery]
            else alts)
          alts
      else alts)
    [queryLower]

/-! ### The exact matcher -/

/-- The score `_exact_search` computes for a message whose (normalized,
lowercased) text contains the alternative `altQuery`:
`match_count`, `position_factor` (0 for an empty text), the
`weight * (0.6 + 0.2 * match_count + 0.2 * position_factor)` formula, and
the 0.9 penalty when the matched alternative is not the primary query. -/
def exactScoreVal (weight : ℚ) (queryLower altQuery text : List Char) : ℚ :=
  let matchCount : ℚ := (pyCount text altQuery : ℚ)
  let positionFactor : ℚ :=
    if text.isEmpty then 0 else 1 - (pyFind text altQuery : ℚ) / ((text.length : ℚ) + 1)
  let score := weight * (6 / 10 + 2 / 10 * matchCount + 2 / 10 * positionFactor)
  if altQuery != queryLower then score * (9 / 10) else score

/-- The body of the message loop of `_exact_search`: the first matching
alternative (if any; the loop breaks at the first hit) yields one scored
result for the message. -/
def exactMsgScore (nfkd : List Char → List Char) (weight : ℚ) (queryLower : List Char)
    (alts : List (List Char)) (msg : Msg) : Option (ℚ × Msg) :=
  (alts.find? (fun a => substrB a (lcLower (pyNormalize nfkd msg.text)))).map
    (fun altQuery =>
      (exactScoreVal weight queryLower altQuery (lcLower (pyNormalize nfkd msg.text)), msg))

/-- `_exact_search`. -/
def _exact_search (nfkd : List Char → List Char) (sm : SearchManager)
    (query : List Char) (messages : List Msg) : List (ℚ × Msg) :=
  let queryLower := lcLower (pyNormalize nfkd query)
  let weight := modeWeight sm (str "exact")
  let alts := buildAlternatives queryLower
  sortDesc (messages.filterMap (exactMsgScore nfkd weight queryLower alts))

/-! ### The pattern matcher -/

/-- The `contraction_terms` dict of `_regex_search` (eight entries). -/
def regexContractionTerms : List (List Char × List (List Char)) :=
  [(wDont, [wDidnt, wDont, str "do not", str "did not"]),
   (wDidnt, [wDont, wDidnt, str "did not", str "do not"]),
   (wIsnt, [wWasnt, wIsnt, str "is not", str "was not"]),
   (wWasnt, [wIsnt, wWasnt, str "was not", str "is not"]),
   (wCant, [wCouldnt, wCant, str "cannot", str "could not"]),
   (wCouldnt, [wCant, wCouldnt, str "could not", str "cannot"]),
   (wWont, [wWouldnt, wWont, str "will not", str "would not"]),
   (wWouldnt, [wWont, wWouldnt, str "would not", str "will not"])]

/-- The optional-apostrophe character class the source writes for an
apostrophe: an opening bracket, two ASCII apostrophes, a closing bracket
and a question mark. -/
def optionalApos : List Char := '[' :: apos :: apos :: ']' :: ['?']

/-- One alternative of an alternation group: variants containing an
apostrophe get it replaced by the optional-apostrophe class, the others are
`re.escape`d. -/
def variantPattern (a : List Char) : List Char :=
  if a.contains apos then pyReplace a [apos] optionalApos else reEscape a

/-- `"(" + "|".join(parts) + ")"`: the alternation group built for the
variants of a contraction. -/
def patternPart (alts : List (List Char)) : List Char :=
  '(' :: List.intercalate ['|'] (alts.map variantPattern) ++ [')']

/-- The `flexible_query` rewrite of `_regex_search`: the first contraction of
the table (in insertion order) occurring case-insensitively in the normalized
query has every case-insensitive occurrence replaced by its alternation
group (`re.sub` with `re.IGNORECASE`); when no contraction occurs, every
apostrophe (if any) is made optional. -/
def buildFlexQuery (nq : List Char) : List Char :=
  match regexContractionTerms.find? (fun p => substrB (lcLower p.1) (lcLower nq)) with
  | some p => subCI p.1 (patternPart p.2) nq
  | none => if nq.contains apos then pyReplace nq [apos] optionalApos else nq

/-- The compiled-pattern flags derived from the regex mode options. -/
structure ReFlags where
  ignoreCase : Bool
  dotAll : Bool
  unicodeFlag : Bool
deriving DecidableEq

/-- `flags` as computed by `_regex_search` from the options. -/
def reFlagsOf (sm : SearchManager) : ReFlags :=
  let o := modeOptions sm
  ⟨o.ignoreCase.getD true, o.dotAll.getD false, o.unicodeOpt.getD true⟩

/-- The pattern `_regex_search` hands to `re.compile`: the flexible query
truncated to `max_pattern_length` (default 1000) characters. -/
def regexPattern (nfkd : List Char → List Char) (sm : SearchManager)
    (query : List Char) : List Char :=
  (buildFlexQuery (pyNormalize nfkd query)).take ((modeOptions sm).maxPatternLength.getD 1000)

/-- The abstract regular-expression engine: `compile` is `none` exactly when
`re.compile` raises `re.error`; a compiled pattern maps a text to the start
indices of its non-overlapping `finditer` matches, which always lie within
the text. -/
structure RegexEngine where
  compile : List Char → ReFlags → Option (List Char → List Nat)
  matchesWithin : ∀ p fl f, compile p fl = some f → ∀ t i, i ∈ f t → i ≤ t.length

/-- The score `_regex_search` computes from the match count, the start of
the first match and the text length: the match-count contribution is capped
at 5, and `position_factor = 1 - firstStart / textLen`. -/
def regexScoreVal (weight : ℚ) (matchCount firstStart textLen : Nat) : ℚ :=
  weight *
    (6 / 10 + 2 / 10 * (min matchCount 5 : ℚ) + 2 / 10 * (1 - (firstStart : ℚ) / (textLen : ℚ)))

/-- The body of the message loop of `_regex_search` for a compiled pattern:
messages with empty normalized text or no matches are skipped. -/
def regexMsgScore (nfkd : List Char → List Char) (weight : ℚ)
    (finder : List Char → List Nat) (msg : Msg) : Option (ℚ × Msg) :=
  if (pyNormalize nfkd msg.text).isEmpty then none
  else
    match finder (pyNormalize nfkd msg.text) with
    | [] => none
    | m0 :: rest =>
      some (regexScoreVal weight (m0 :: rest).length m0 (pyNormalize nfkd msg.text).length, msg)

/-- `_regex_search`: on compilation failure it falls back to `_exact_search`
on the original query. -/
def _regex_search (nfkd : List Char → List Char) (eng : RegexEngine) (sm : SearchManager)
    (query : List Char) (messages : List Msg) : List (ℚ × Msg) :=
  let weight := modeWeight sm (str "regex")
  match eng.compile (regexPattern nfkd sm query) (reFlagsOf sm) with
  | none => _exact_search nfkd sm query messages
  | some finder => sortDesc (messages.filterMap (regexMsgScore nfkd weight finder))

/-! ### The hybrid combiner -/

/-- One `all_results[msg_id] = msg; msg_scores[msg_id] += s` step on the
insertion-ordered accumulator: an existing key gets the score added and the
message replaced; a new key is appended. -/
def updateEntry : List (List Char × ℚ × Msg) → List Char → ℚ → Msg →
    List (List Char × ℚ × Msg)
  | [], key, s, m => [(key, s, m)]
  | (k, s0, m0) :: rest, key, s, m =>
    if k == key then (k, s0 + s, m) :: rest else (k, s0, m0) :: updateEntry rest key s m

/-- Accumulation of one scored result into the hybrid state, with the
configured hybrid weight; results with an empty identity are skipped. -/
def hybridAdd (w : ℚ) (acc : List (List Char × ℚ × Msg)) (r : ℚ × Msg) :
    List (List Char × ℚ × Msg) :=
  if r.2.name.isEmpty then acc else updateEntry acc r.2.name (w * r.1) r.2

/-- `"exact" in self.search_modes and self.search_modes["exact"].get("enabled", False)`. -/
def exactEnabled (sm : SearchManager) : Bool :=
  match lookupMode sm (str "exact") with
  | some e => e.enabled
  | none => false

/-- The regex analogue of `exactEnabled`. -/
def regexEnabled (sm : SearchManager) : Bool :=
  match lookupMode sm (str "regex") with
  | some e => e.enabled
  | none => false

/-- The hybrid accumulator after the exact pass: when the exact mode is
enabled, its results are folded in with `hybrid_weights.get("exact", 1.0)`;
otherwise the accumulator stays empty. -/
def hybridExactAcc (nfkd : List Char → List Char) (sm : SearchManager)
    (q : List Char) (messages : List Msg) : List (List Char × ℚ × Msg) :=
  if exactEnabled sm then
    (_exact_search nfkd sm q messages).foldl (hybridAdd (sm.hybridWeightExact.getD 1)) []
  else []

/-- The hybrid accumulator after both passes: when the regex mode is
enabled, its results are folded in with `hybrid_weights.get("regex", 1.2)`. -/
def hybridBothAcc (nfkd : List Char → List Char) (eng : RegexEngine) (sm : SearchManager)
    (q : List Char) (messages : List Msg) : List (List Char × ℚ × Msg) :=
  if regexEnabled sm then
    (_regex_search nfkd eng sm q messages).foldl (hybridAdd (sm.hybridWeightRegex.getD (12 / 10)))
      (hybridExactAcc nfkd sm q messages)
  else hybridExactAcc nfkd sm q messages

/-- `_hybrid_search`: strips the query, runs the enabled modes, accumulates
weighted scores per message identity and sorts the combined results. -/
def _hybrid_search (nfkd : List Char → List Char) (eng : RegexEngine) (sm : SearchManager)
    (query : List Char) (messages : List Msg) : List (ℚ × Msg) :=
  sortDesc ((hybridBothAcc nfkd eng sm (pyStrip query) messages).map (fun e => (e.2.1, e.2.2)))

/-! ### The mode dispatcher -/

/-- `search`: resolves the mode (default, semantic downgrade, enabled-modes
gate) and dispatches; the final unreachable-through-public-input branch
raises `ValueError`, embedded as `Except.error`. -/
def search (nfkd : List Char → List Char) (eng : RegexEngine) (sm : SearchManager)
    (query : List Char) (messages : List Msg) (mode : Option (List Char)) :
    Except (List Char) (List (ℚ × Msg)) :=
  let m0 := match mode with
    | none => get_default_mode sm
    | some m => m
  let m1 := if m0 == str "semantic" then str "exact" else m0
  if m1 != str "hybrid" && (lookupMode sm m1).isNone then
    .ok (_exact_search nfkd sm query messages)
  else if m1 == str "hybrid" then .ok (_hybrid_search nfkd eng sm query messages)
  else if m1 == str "exact" then .ok (_exact_search nfkd sm query messages)
  else if m1 == str "regex" then .ok (_regex_search nfkd eng sm query messages)
  else .error (str "Unknown search mode")

/-! ### Claim-side helper definitions and concrete instances for witnesses -/

/-- The per-identity hybrid invariant: every entry has a non-empty key equal
to the name of its stored message, and keys are pairwise distinct. -/
def GoodAcc (acc : List (List Char × ℚ × Msg)) : Prop :=
  (∀ e ∈ acc, e.1 ≠ [] ∧ e.1 = e.2.2.name) ∧ (acc.map Prod.fst).Nodup

/-- The accumulated score stored for an identity (0 when absent). -/
def accScore (acc : List (List Char × ℚ × Msg)) (n : List Char) : ℚ :=
  match acc.find? (fun e => e.1 == n) with
  | some e => e.2.1
  | none => 0

/-- The message stored for an identity, if any. -/
def accMsg (acc : List (List Char × ℚ × Msg)) (n : List Char) : Option Msg :=
  (acc.find? (fun e => e.1 == n)).map (fun e => e.2.2)

/-- Sum of the scores contributed by one mode for a given identity. -/
def sumFor (rs : List (ℚ × Msg)) (n : List Char) : ℚ :=
  ((rs.filter (fun p => p.2.name == n)).map Prod.fst).sum

/-- The last message with the given identity in a result list, if any. -/
def lastWith (n : List Char) : List (ℚ × Msg) → Option Msg
  | [] => none
  | p :: rest =>
    match lastWith n rest with
    | some m => some m
    | none => if p.2.name == n then some p.2 else none

/-- An empty `options` mapping. -/
def defaultOptions : RegexOptions := ⟨none, none, none, none⟩

/-- An engine on which no pattern compiles. -/
def noneEngine : RegexEngine := ⟨fun _ _ => none, fun _ _ _ h => nomatch h⟩

/-- A manager with only the exact mode enabled, weight 1, hybrid weight 1. -/
def smW : SearchManager :=
  ⟨[(str "exact", ⟨true, some 1, defaultOptions⟩)], some (str "exact"), some 1, some (12 / 10)⟩

/-- A manager whose exact mode carries a negative weight. -/
def smNeg : SearchManager :=
  ⟨[(str "exact", ⟨true, some (-1), defaultOptions⟩)], none, none, none⟩

/-- A manager with only the exact mode enabled and hybrid weight 1. -/
def smOne : SearchManager :=
  ⟨[(str "exact", ⟨true, some 1, defaultOptions⟩)], none, some 1, none⟩

/-- Concrete messages for witnesses. -/
def msgA : Msg := ⟨str "a", str "m1"⟩

/-- A second message sharing the identity of `msgA`. -/
def msgB : Msg := ⟨str "ba", str "m1"⟩

/-- A message whose text contains the expanded form of a contraction. -/
def msgDid : Msg := ⟨str "they did not go", str "m2"⟩

/-- A message whose text contains a contraction. -/
def msgDont : Msg := ⟨str "i don" ++ apos :: str "t know", str "m3"⟩

/-! ### Basic lemmas about the embedding -/

theorem sortDesc_perm (l : List (ℚ × Msg)) : (sortDesc l).Perm l :=
  List.perm_insertionSort scoreGe l

theorem sortDesc_sorted (l : List (ℚ × Msg)) : List.Sorted scoreGe (sortDesc l) :=
  List.sorted_insertionSort scoreGe l

theorem mem_sortDesc {x : ℚ × Msg} {l : List (ℚ × Msg)} : x ∈ sortDesc l ↔ x ∈ l :=
  (sortDesc_perm l).mem_iff

theorem substrB_nil (t : List Char) : substrB [] t = true := by
  cases t <;> rfl

theorem pyFind_nil (t : List Char) : pyFind t [] = 0 := by
  cases t <;> rfl

theorem findSub_le_length {sub : List Char} :
    ∀ {s : List Char} {i : Nat}, findSub sub s = some i → i ≤ s.length := by
  intro s
  induction s with
  | nil =>
    intro i h
    unfold findSub at h
    split at h
    · cases h; exact Nat.le_refl 0
    · cases h
  | cons c t ih =>
    intro i h
    unfold findSub at h
    split at h
    · cases h; exact Nat.zero_le _
    · rcases Option.map_eq_some'.mp h with ⟨j, hj, rfl⟩
      exact Nat.succ_le_succ (ih hj)

/-! ### Claim C1 -/

/-- Claim C1: exact-search scoring.  Up to the final (permuting) sort,
`_exact_search` maps every message whose normalized lowercased text contains
some generated alternative to exactly one scored result - scored, for the
first matching alternative `alt` in enumeration order, by
`weight * (0.6 + 0.2 * matchCount + 0.2 * positionFactor)` where
`matchCount` is the number of occurrences of `alt`,
`positionFactor = 1 - firstIndex / (len(text) + 1)` (0 for empty text),
with a further factor 0.9 when `alt` differs from the primary lowercased
query - and drops every message with no matching alternative. -/
theorem exact_search_scoring (nfkd : List Char → List Char) (sm : SearchManager)
    (query : List Char) (messages : List Msg) :
    (_exact_search nfkd sm query messages).Perm
      (messages.filterMap (fun msg =>
        ((buildAlternatives (lcLower (pyNormalize nfkd query))).find?
            (fun a => substrB a (lcLower (pyNormalize nfkd msg.text)))).map
          (fun alt =>
            (let text := lcLower (pyNormalize nfkd msg.text)
             let matchCount : ℚ := (pyCount text alt : ℚ)
             let positionFactor : ℚ :=
               if text.isEmpty then 0
               else 1 - (pyFind text alt : ℚ) / ((text.length : ℚ) + 1)
             let score :=
               modeWeight sm (str "exact") *
                 (6 / 10 + 2 / 10 * matchCount + 2 / 10 * positionFactor)
             if alt != lcLower (pyNormalize nfkd query) then score * (9 / 10) else score,
             msg)))) :=
  sortDesc_perm _

/-! ### Claim C9 -/

/-- Claim C9: for the empty query (NFKD leaves the empty string empty),
every message of the input list - including one with empty or absent
text - contributes exactly one scored result, because the empty string is a
substring of every text. -/
theorem exact_search_empty_query (nfkd : List Char → List Char) (sm : SearchManager)
    (messages : List Msg) (h0 : nfkd [] = []) :
    (_exact_search nfkd sm [] messages).Perm
      (messages.map (fun msg =>
        (modeWeight sm (str "exact") *
          (6 / 10 + 2 / 10 * (((lcLower (pyNormalize nfkd msg.text)).length : ℚ) + 1) +
            2 / 10 * (if (lcLower (pyNormalize nfkd msg.text)).isEmpty then 0 else 1)),
         msg))) := by
  have hq : lcLower (pyNormalize nfkd []) = [] := by
    rw [pyNormalize, h0]; rfl
  have halts : buildAlternatives ([] : List Char) = [[]] := by decide
  have hstep : _exact_search nfkd sm [] messages =
      sortDesc (messages.filterMap
        (exactMsgScore nfkd (modeWeight sm (str "exact")) [] [[]])) := by
    show sortDesc (messages.filterMap
        (exactMsgScore nfkd (modeWeight sm (str "exact")) (lcLower (pyNormalize nfkd []))
          (buildAlternatives (lcLower (pyNormalize nfkd []))))) = _
    rw [hq, halts]
  have hpt : exactMsgScore nfkd (modeWeight sm (str "exact")) [] [[]] =
      fun msg : Msg =>
        some (modeWeight sm (str "exact") *
          (6 / 10 + 2 / 10 * (((lcLower (pyNormalize nfkd msg.text)).length : ℚ) + 1) +
            2 / 10 * (if (lcLower (pyNormalize nfkd msg.text)).isEmpty then 0 else 1)),
         msg) := by
    funext msg
    have hfind : (([[]] : List (List Char)).find?
        (fun a => substrB a (lcLower (pyNormalize nfkd msg.text)))) = some [] := by
      simp [List.find?, substrB_nil]
    simp only [exactMsgScore, hfind, Option.map_some']
    simp [exactScoreVal, pyCount, pyFind_nil, Nat.cast_add, Nat.cast_one]
  rw [hstep, hpt]
  have : (messages.filterMap (fun msg : Msg =>
      some (modeWeight sm (str "exact") *
        (6 / 10 + 2 / 10 * (((lcLower (pyNormalize nfkd msg.text)).length : ℚ) + 1) +
          2 / 10 * (if (lcLower (pyNormalize nfkd msg.text)).isEmpty then 0 else 1)),
       msg))) = messages.map (fun msg : Msg =>
        (modeWeight sm (str "exact") *
          (6 / 10 + 2 / 10 * (((lcLower (pyNormalize nfkd msg.text)).length : ℚ) + 1) +
            2 / 10 * (if (lcLower (pyNormalize nfkd msg.text)).isEmpty then 0 else 1)),
         msg)) := congrFun (List.filterMap_eq_map _) messages
  rw [this]
  exact sortDesc_perm _

/-! ### Claim C2 -/

/-- Claim C2: malformed-pattern fallback.  Whenever the rewritten (and
truncated) pattern fails to compile, `_regex_search` returns exactly the
result of `_exact_search` on the original query; the embedding is a total
function, so no exception escapes. -/
theorem regex_search_bad_pattern_fallback (nfkd : List Char → List Char) (eng : RegexEngine)
    (sm : SearchManager) (query : List Char) (messages : List Msg)
    (h : eng.compile (regexPattern nfkd sm query) (reFlagsOf sm) = none) :
    _regex_search nfkd eng sm query messages = _exact_search nfkd sm query messages := by
  simp only [_regex_search, h]

/-- Witness for `regex_search_bad_pattern_fallback`: on `noneEngine` no
pattern compiles, and the fallback equation holds at a concrete query. -/
theorem regex_search_bad_pattern_fallback_witness :
    _regex_search id noneEngine smW (str "bad(pattern") [msgA] =
      _exact_search id smW (str "bad(pattern") [msgA] :=
  regex_search_bad_pattern_fallback id noneEngine smW (str "bad(pattern") [msgA] rfl

/-! ### Claim C5 -/

/-- Claim C5: unknown or disabled mode fallback.  Every mode string other
than `hybrid` that is not a key of the enabled-modes dict makes `search`
return exactly the `_exact_search` result, raising no error. -/
theorem unknown_mode_falls_back_to_exact (nfkd : List Char → List Char) (eng : RegexEngine)
    (sm : SearchManager) (query : List Char) (messages : List Msg) (mode : List Char)
    (hmode : mode ≠ str "hybrid") (hnot : lookupMode sm mode = none) :
    search nfkd eng sm query messages (some mode) =
      .ok (_exact_search nfkd sm query messages) := by
  by_cases hsem : mode = str "semantic"
  · subst hsem
    have e1 : (str "semantic" == str "semantic") = true := by decide
    have e2 : (str "exact" != str "hybrid") = true := by decide
    have e3 : (str "exact" == str "hybrid") = false := by decide
    have e4 : (str "exact" == str "exact") = true := by decide
    cases hex : lookupMode sm (str "exact") with
    | none => simp [search, e1, e2, e3, e4, hex]
    | some e => simp [search, e1, e2, e3, e4, hex]
  · have h1 : (mode == str "semantic") = false := beq_eq_false_iff_ne.mpr hsem
    have h2 : (mode != str "hybrid") = true := bne_iff_ne.mpr hmode
    simp [search, h1, h2, hnot]

/-- Witness for `unknown_mode_falls_back_to_exact` at a concrete unsupported
mode name. -/
theorem unknown_mode_falls_back_to_exact_witness :
    search id noneEngine smW (str "hello") [msgA] (some (str "unsupported_name")) =
      .ok (_exact_search id smW (str "hello") [msgA]) :=
  unknown_mode_falls_back_to_exact id noneEngine smW (str "hello") [msgA]
    (str "unsupported_name") (by decide) rfl

/-! ### Claim C6 -/

/-- A message some of whose generated alternatives occurs in its normalized
lowercased text contributes a result to `_exact_search`. -/
theorem exact_search_mem_of_alt (nfkd : List Char → List Char) (sm : SearchManager)
    (query : List Char) (messages : List Msg) (msg : Msg) (hmem : msg ∈ messages)
    (halt : ∃ a ∈ buildAlternatives (lcLower (pyNormalize nfkd query)),
      substrB a (lcLower (pyNormalize nfkd msg.text)) = true) :
    ∃ s, (s, msg) ∈ _exact_search nfkd sm query messages := by
  have hsome : ((buildAlternatives (lcLower (pyNormalize nfkd query))).find?
      (fun a => substrB a (lcLower (pyNormalize nfkd msg.text)))).isSome := by
    rw [List.find?_isSome]
    exact halt
  rcases Option.isSome_iff_exists.mp hsome with ⟨alt, hfind⟩
  refine ⟨exactScoreVal (modeWeight sm (str "exact")) (lcLower (pyNormalize nfkd query)) alt
      (lcLower (pyNormalize nfkd msg.text)), ?_⟩
  have hrepr : _exact_search nfkd sm query messages =
      sortDesc (messages.filterMap (exactMsgScore nfkd (modeWeight sm (str "exact"))
        (lcLower (pyNormalize nfkd query))
        (buildAlternatives (lcLower (pyNormalize nfkd query))))) := rfl
  rw [hrepr, mem_sortDesc]
  refine List.mem_filterMap.mpr ⟨msg, hmem, ?_⟩
  simp only [exactMsgScore, hfind, Option.map_some']

/-- Claim C6: contraction equivalence in exact mode.  The query `don't`
yields a result for every message whose normalized lowercased text contains
`did not`, `didn't` or `do not`; symmetrically the query `didn't` yields a
result for every message containing `don't` (NFKD fixes these ASCII
queries). -/
theorem contraction_equivalence (nfkd : List Char → List Char) (sm : SearchManager)
    (messages : List Msg) (msg : Msg) (hmem : msg ∈ messages) :
    (nfkd wDont = wDont →
      (substrB (str "did not") (lcLower (pyNormalize nfkd msg.text)) = true ∨
        substrB wDidnt (lcLower (pyNormalize nfkd msg.text)) = true ∨
        substrB (str "do not") (lcLower (pyNormalize nfkd msg.text)) = true) →
      ∃ s, (s, msg) ∈ _exact_search nfkd sm wDont messages) ∧
    (nfkd wDidnt = wDidnt →
      substrB wDont (lcLower (pyNormalize nfkd msg.text)) = true →
      ∃ s, (s, msg) ∈ _exact_search nfkd sm wDidnt messages) := by
  constructor
  · intro hn hsub
    have hql : lcLower (pyNormalize nfkd wDont) = wDont := by
      rw [pyNormalize, hn]; decide
    have halts : buildAlternatives wDont = [wDont, wDidnt, str "do not", str "did not"] := by
      decide
    apply exact_search_mem_of_alt nfkd sm wDont messages msg hmem
    rw [hql, halts]
    rcases hsub with h | h | h
    · exact ⟨str "did not", by decide, h⟩
    · exact ⟨wDidnt, by decide, h⟩
    · exact ⟨str "do not", by decide, h⟩
  · intro hn hsub
    have hql : lcLower (pyNormalize nfkd wDidnt) = wDidnt := by
      rw [pyNormalize, hn]; decide
    have halts : buildAlternatives wDidnt = [wDidnt, wDont, str "did not", str "do not"] := by
      decide
    apply exact_search_mem_of_alt nfkd sm wDidnt messages msg hmem
    rw [hql, halts]
    exact ⟨wDont, by decide, hsub⟩

/-- Witness for `contraction_equivalence`: concrete messages containing
`did not` and `don't`. -/
theorem contraction_equivalence_witness :
    (∃ s, (s, msgDid) ∈ _exact_search id smW wDont [msgDid, msgDont]) ∧
      ∃ s, (s, msgDont) ∈ _exact_search id smW wDidnt [msgDid, msgDont] :=
  ⟨(contraction_equivalence id smW [msgDid, msgDont] msgDid (by simp)).1 rfl
      (Or.inl (by decide)),
    (contraction_equivalence id smW [msgDid, msgDont] msgDont (by simp)).2 rfl (by decide)⟩

/-! ### Claim C4 -/

theorem exact_search_sorted (nfkd : List Char → List Char) (sm : SearchManager)
    (query : List Char) (messages : List Msg) :
    List.Sorted scoreGe (_exact_search nfkd sm query messages) :=
  sortDesc_sorted _

theorem regex_search_sorted (nfkd : List Char → List Char) (eng : RegexEngine)
    (sm : SearchManager) (query : List Char) (messages : List Msg) :
    List.Sorted scoreGe (_regex_search nfkd eng sm query messages) := by
  simp only [_regex_search]
  split
  · exact exact_search_sorted nfkd sm query messages
  · exact sortDesc_sorted _

theorem hybrid_search_sorted (nfkd : List Char → List Char) (eng : RegexEngine)
    (sm : SearchManager) (query : List Char) (messages : List Msg) :
    List.Sorted scoreGe (_hybrid_search nfkd eng sm query messages) :=
  sortDesc_sorted _

/-- Claim C4: every result list - of `_exact_search`, `_regex_search`,
`_hybrid_search`, and of every successful `search` call in any mode - is
sorted non-increasing by score. -/
theorem search_results_sorted (nfkd : List Char → List Char) (eng : RegexEngine)
    (sm : SearchManager) (query : List Char) (messages : List Msg)
    (mode : Option (List Char)) :
    List.Sorted scoreGe (_exact_search nfkd sm query messages) ∧
    List.Sorted scoreGe (_regex_search nfkd eng sm query messages) ∧
    List.Sorted scoreGe (_hybrid_search nfkd eng sm query messages) ∧
    ∀ l, search nfkd eng sm query messages mode = .ok l → List.Sorted scoreGe l := by
  refine ⟨exact_search_sorted nfkd sm query messages,
    regex_search_sorted nfkd eng sm query messages,
    hybrid_search_sorted nfkd eng sm query messages, ?_⟩
  intro l h
  simp only [search] at h
  repeat' split at h
  all_goals
    first
      | (cases h; exact exact_search_sorted nfkd sm query messages)
      | (cases h; exact hybrid_search_sorted nfkd eng sm query messages)
      | (cases h; exact regex_search_sorted nfkd eng sm query messages)
      | cases h

/-- Witness for `search_results_sorted` at a concrete call. -/
theorem search_results_sorted_witness : List.Sorted scoreGe ([] : List (ℚ × Msg)) :=
  (search_results_sorted id noneEngine smW (str "q") [] (some (str "exact"))).2.2.2 [] rfl

/-! ### Claim C7 -/

/-- Claim C7 (amended): the `flexible_query` rewrite.  If some contraction of
the eight-entry regex table occurs case-insensitively in the normalized
query, then, for the first such contraction in table order, EVERY
case-insensitive occurrence of it is replaced by the alternation group
covering all its listed variants (apostrophes in the variants become the
optional-apostrophe class, apostrophe-free variants are `re.escape`d);
otherwise, a query containing an apostrophe gets every apostrophe made
optional, and any other query is left unchanged. -/
theorem flexible_query_rewrite (nq : List Char) :
    (∀ pre c vs post,
        regexContractionTerms = pre ++ (c, vs) :: post →
        (∀ p ∈ pre, substrB (lcLower p.1) (lcLower nq) = false) →
        substrB (lcLower c) (lcLower nq) = true →
        buildFlexQuery nq = subCI c (patternPart vs) nq) ∧
    ((∀ p ∈ regexContractionTerms, substrB (lcLower p.1) (lcLower nq) = false) →
      nq.contains apos = true →
      buildFlexQuery nq = pyReplace nq [apos] optionalApos) ∧
    ((∀ p ∈ regexContractionTerms, substrB (lcLower p.1) (lcLower nq) = false) →
      nq.contains apos = false →
      buildFlexQuery nq = nq) := by
  refine ⟨?_, ?_, ?_⟩
  · intro pre c vs post htab hpre hc
    have hfind : regexContractionTerms.find?
        (fun p => substrB (lcLower p.1) (lcLower nq)) = some (c, vs) := by
      rw [htab]
      clear htab
      induction pre with
      | nil => simp [List.find?_cons_of_pos, hc]
      | cons a t ih =>
        rw [List.cons_append, List.find?_cons_of_neg]
        · exact ih (fun p hp => hpre p (List.mem_cons_of_mem a hp))
        · simp [hpre a (List.mem_cons_self a t)]
    simp only [buildFlexQuery, hfind]
  · intro hall hapos
    have hfind : regexContractionTerms.find?
        (fun p => substrB (lcLower p.1) (lcLower nq)) = none := by
      rw [List.find?_eq_none]
      intro p hp
      simp [hall p hp]
    simp only [buildFlexQuery, hfind, hapos, if_true]
  · intro hall hapos
    have hfind : regexContractionTerms.find?
        (fun p => substrB (lcLower p.1) (lcLower nq)) = none := by
      rw [List.find?_eq_none]
      intro p hp
      simp [hall p hp]
    simp only [buildFlexQuery, hfind, hapos, Bool.false_eq_true, if_false]

/-- Witness for `flexible_query_rewrite`: the three branches at concrete
queries. -/
theorem flexible_query_rewrite_witness :
    buildFlexQuery wDont =
      subCI wDont (patternPart [wDidnt, wDont, str "do not", str "did not"]) wDont ∧
    buildFlexQuery (str "it" ++ apos :: str "s") =
      pyReplace (str "it" ++ apos :: str "s") [apos] optionalApos ∧
    buildFlexQuery (str "hello") = str "hello" :=
  ⟨(flexible_query_rewrite wDont).1 [] wDont [wDidnt, wDont, str "do not", str "did not"]
      (regexContractionTerms.drop 1) rfl (by simp) (by decide),
    (flexible_query_rewrite (str "it" ++ apos :: str "s")).2.1 (by decide) (by decide),
    (flexible_query_rewrite (str "hello")).2.2 (by decide) (by decide)⟩

/-- Claim C7 counterexample: on the query `don't don't` the code replaces
BOTH occurrences of the contraction (the `re.sub` call replaces every
occurrence), so that no occurrence of `don't` survives in the rewritten
pattern - the claim's single-occurrence replacement would leave the second
occurrence intact. -/
theorem flexible_query_rewrite_cex :
    pyCount (wDont ++ ' ' :: wDont) wDont = 2 ∧
    buildFlexQuery (wDont ++ ' ' :: wDont) =
      patternPart [wDidnt, wDont, str "do not", str "did not"] ++
        ' ' :: patternPart [wDidnt, wDont, str "do not", str "did not"] ∧
    pyCount (buildFlexQuery (wDont ++ ' ' :: wDont)) wDont = 0 := by
  refine ⟨by decide, by decide, by decide⟩

/-! ### Claim C8 -/

theorem exactScoreVal_nonneg (weight : ℚ) (queryLower altQuery text : List Char)
    (hw : 0 ≤ weight) (hsub : substrB altQuery text = true) :
    0 ≤ exactScoreVal weight queryLower altQuery text := by
  rcases Option.isSome_iff_exists.mp hsub with ⟨i, hi⟩
  have hfind : pyFind text altQuery = (i : Int) := by
    simp only [pyFind, hi]
  have hile : i ≤ text.length := findSub_le_length hi
  have hpf : 0 ≤ (if text.isEmpty then (0 : ℚ)
      else 1 - (pyFind text altQuery : ℚ) / ((text.length : ℚ) + 1)) := by
    split
    · exact le_refl 0
    · rw [hfind]
      push_cast
      rw [sub_nonneg]
      refine div_le_one_of_le₀ ?_ ?_
      · have : (i : ℚ) ≤ (text.length : ℚ) := by exact_mod_cast hile
        linarith
      · positivity
  have hmc : 0 ≤ ((pyCount text altQuery : ℚ)) := Nat.cast_nonneg _
  have hbase : 0 ≤ (6 / 10 + 2 / 10 * (pyCount text altQuery : ℚ) + 2 / 10 *
      (if text.isEmpty then (0 : ℚ)
        else 1 - (pyFind text altQuery : ℚ) / ((text.length : ℚ) + 1))) := by
    have h1 : 0 ≤ 2 / 10 * (pyCount text altQuery : ℚ) := by positivity
    have h2 : 0 ≤ 2 / 10 * (if text.isEmpty then (0 : ℚ)
        else 1 - (pyFind text altQuery : ℚ) / ((text.length : ℚ) + 1)) := by
      have : (0 : ℚ) ≤ 2 / 10 := by norm_num
      exact mul_nonneg this hpf
    have h3 : (0 : ℚ) ≤ 6 / 10 := by norm_num
    linarith
  have hscore : 0 ≤ weight * (6 / 10 + 2 / 10 * (pyCount text altQuery : ℚ) + 2 / 10 *
      (if text.isEmpty then (0 : ℚ)
        else 1 - (pyFind text altQuery : ℚ) / ((text.length : ℚ) + 1))) :=
    mul_nonneg hw hbase
  simp only [exactScoreVal]
  split
  · exact mul_nonneg hscore (by norm_num)
  · exact hscore

theorem exact_scores_nonneg (nfkd : List Char → List Char) (sm : SearchManager)
    (query : List Char) (messages : List Msg) (hw : 0 ≤ modeWeight sm (str "exact")) :
    ∀ r ∈ _exact_search nfkd sm query messages, 0 ≤ r.1 := by
  intro r hr
  have hrepr : _exact_search nfkd sm query messages =
      sortDesc (messages.filterMap (exactMsgScore nfkd (modeWeight sm (str "exact"))
        (lcLower (pyNormalize nfkd query))
        (buildAlternatives (lcLower (pyNormalize nfkd query))))) := rfl
  rw [hrepr, mem_sortDesc] at hr
  rcases List.mem_filterMap.mp hr with ⟨msg, _, hscore⟩
  simp only [exactMsgScore] at hscore
  rcases Option.map_eq_some'.mp hscore with ⟨alt, hfind, heq⟩
  cases heq
  have hsub : substrB alt (lcLower (pyNormalize nfkd msg.text)) = true := by
    have := List.find?_some hfind
    simpa using this
  exact exactScoreVal_nonneg _ _ _ _ hw hsub

theorem regexScoreVal_nonneg (weight : ℚ) (matchCount firstStart textLen : Nat)
    (hw : 0 ≤ weight) (hle : firstStart ≤ textLen) :
    0 ≤ regexScoreVal weight matchCount firstStart textLen := by
  have hpf : 0 ≤ 1 - (firstStart : ℚ) / (textLen : ℚ) := by
    rw [sub_nonneg]
    refine div_le_one_of_le₀ ?_ ?_
    · exact_mod_cast hle
    · positivity
  have hbase : 0 ≤ (6 / 10 + 2 / 10 * (min matchCount 5 : ℚ) + 2 / 10 *
      (1 - (firstStart : ℚ) / (textLen : ℚ))) := by
    have h1 : (0 : ℚ) ≤ (min matchCount 5 : ℚ) := by positivity
    have h2 : 0 ≤ 2 / 10 * (1 - (firstStart : ℚ) / (textLen : ℚ)) :=
      mul_nonneg (by norm_num) hpf
    nlinarith
  exact mul_nonneg hw hbase

theorem regex_scores_nonneg (nfkd : List Char → List Char) (eng : RegexEngine)
    (sm : SearchManager) (query : List Char) (messages : List Msg)
    (hwE : 0 ≤ modeWeight sm (str "exact")) (hwR : 0 ≤ modeWeight sm (str "regex")) :
    ∀ r ∈ _regex_search nfkd eng sm query messages, 0 ≤ r.1 := by
  intro r hr
  simp only [_regex_search] at hr
  rcases hcomp : eng.compile (regexPattern nfkd sm query) (reFlagsOf sm) with _ | finder
  · rw [hcomp] at hr
    exact exact_scores_nonneg nfkd sm query messages hwE r hr
  · rw [hcomp] at hr
    rw [mem_sortDesc] at hr
    rcases List.mem_filterMap.mp hr with ⟨msg, _, hscore⟩
    simp only [regexMsgScore] at hscore
    split at hscore
    · cases hscore
    · split at hscore
      · cases hscore
      · cases hscore
        rename_i hne hm
        refine regexScoreVal_nonneg _ _ _ _ hwR ?_
        refine eng.matchesWithin _ _ _ hcomp _ _ ?_
        rw [hm]
        exact List.mem_cons_self _ _

theorem updateEntry_nonneg (acc : List (List Char × ℚ × Msg)) (key : List Char)
    (s : ℚ) (m : Msg) (hacc : ∀ e ∈ acc, 0 ≤ e.2.1) (hs : 0 ≤ s) :
    ∀ e ∈ updateEntry acc key s m, 0 ≤ e.2.1 := by
  induction acc with
  | nil =>
    intro e he
    simp only [updateEntry, List.mem_singleton] at he
    subst he
    exact hs
  | cons a t ih =>
    intro e he
    simp only [updateEntry] at he
    split at he
    · rcases List.mem_cons.mp he with h | h
      · subst h
        have := hacc a (List.mem_cons_self a t)
        exact add_nonneg this hs
      · exact hacc _ (List.mem_cons_of_mem a h)
    · rcases List.mem_cons.mp he with h | h
      · subst h
        exact hacc a (List.mem_cons_self a t)
      · exact ih (fun e he => hacc e (List.mem_cons_of_mem a he)) e h

theorem hybridAdd_nonneg (w : ℚ) (acc : List (List Char × ℚ × Msg)) (r : ℚ × Msg)
    (hacc : ∀ e ∈ acc, 0 ≤ e.2.1) (hw : 0 ≤ w) (hr : 0 ≤ r.1) :
    ∀ e ∈ hybridAdd w acc r, 0 ≤ e.2.1 := by
  simp only [hybridAdd]
  split
  · exact hacc
  · exact updateEntry_nonneg acc r.2.name (w * r.1) r.2 hacc (mul_nonneg hw hr)

theorem foldl_hybridAdd_nonneg (w : ℚ) (rs : List (ℚ × Msg)) (hw : 0 ≤ w)
    (hrs : ∀ r ∈ rs, 0 ≤ r.1) :
    ∀ acc : List (List Char × ℚ × Msg), (∀ e ∈ acc, 0 ≤ e.2.1) →
      ∀ e ∈ rs.foldl (hybridAdd w) acc, 0 ≤ e.2.1 := by
  induction rs with
  | nil => intro acc hacc; exact hacc
  | cons r t ih =>
    intro acc hacc
    simp only [List.foldl_cons]
    exact ih (fun x hx => hrs x (List.mem_cons_of_mem r hx))
      (hybridAdd w acc r)
      (hybridAdd_nonneg w acc r hacc hw (hrs r (List.mem_cons_self r t)))

theorem hybrid_scores_nonneg (nfkd : List Char → List Char) (eng : RegexEngine)
    (sm : SearchManager) (query : List Char) (messages : List Msg)
    (hwE : 0 ≤ modeWeight sm (str "exact")) (hwR : 0 ≤ modeWeight sm (str "regex"))
    (hhE : 0 ≤ sm.hybridWeightExact.getD 1)
    (hhR : 0 ≤ sm.hybridWeightRegex.getD (12 / 10)) :
    ∀ r ∈ _hybrid_search nfkd eng sm query messages, 0 ≤ r.1 := by
  intro r hr
  have hacc1 : ∀ e ∈ (if exactEnabled sm then
      (_exact_search nfkd sm (pyStrip query) messages).foldl
        (hybridAdd (sm.hybridWeightExact.getD 1)) []
    else []), 0 ≤ e.2.1 := by
    split
    · exact foldl_hybridAdd_nonneg _ _ hhE
        (exact_scores_nonneg nfkd sm (pyStrip query) messages hwE) [] (by simp)
    · simp
  have hacc2 : ∀ e ∈ (if regexEnabled sm then
      (_regex_search nfkd eng sm (pyStrip query) messages).foldl
        (hybridAdd (sm.hybridWeightRegex.getD (12 / 10)))
        (if exactEnabled sm then
          (_exact_search nfkd sm (pyStrip query) messages).foldl
            (hybridAdd (sm.hybridWeightExact.getD 1)) []
        else [])
    else
      (if exactEnabled sm then
        (_exact_search nfkd sm (pyStrip query) messages).foldl
          (hybridAdd (sm.hybridWeightExact.getD 1)) []
      else [])), 0 ≤ e.2.1 := by
    split
    · exact foldl_hybridAdd_nonneg _ _ hhR
        (regex_scores_nonneg nfkd eng sm (pyStrip query) messages hwE hwR) _ hacc1
    · exact hacc1
  have hrepr : _hybrid_search nfkd eng sm query messages =
      sortDesc ((if regexEnabled sm then
        (_regex_search nfkd eng sm (pyStrip query) messages).foldl
          (hybridAdd (sm.hybridWeightRegex.getD (12 / 10)))
          (if exactEnabled sm then
            (_exact_search nfkd sm (pyStrip query) messages).foldl
              (hybridAdd (sm.hybridWeightExact.getD 1)) []
          else [])
      else
        (if exactEnabled sm then
          (_exact_search nfkd sm (pyStrip query) messages).foldl
            (hybridAdd (sm.hybridWeightExact.getD 1)) []
        else [])).map (fun e => (e.2.1, e.2.2))) := rfl
  rw [hrepr, mem_sortDesc] at hr
  rcases List.mem_map.mp hr with ⟨e, he, hre⟩
  have := hacc2 e he
  rw [← hre]
  exact this

/-- Claim C8 (amended): provided the configured exact and regex mode weights
and the hybrid weights are non-negative, every score in a result list
returned by `search` (in any mode) is non-negative.  The unamended claim is
refuted by `search_scores_nonneg_cex`: a configuration with a negative
weight produces a negative score. -/
theorem search_scores_nonneg (nfkd : List Char → List Char) (eng : RegexEngine)
    (sm : SearchManager) (query : List Char) (messages : List Msg)
    (mode : Option (List Char))
    (hwE : 0 ≤ modeWeight sm (str "exact")) (hwR : 0 ≤ modeWeight sm (str "regex"))
    (hhE : 0 ≤ sm.hybridWeightExact.getD 1)
    (hhR : 0 ≤ sm.hybridWeightRegex.getD (12 / 10)) :
    ∀ l, search nfkd eng sm query messages mode = .ok l → ∀ r ∈ l, 0 ≤ r.1 := by
  intro l h
  simp only [search] at h
  repeat' split at h
  all_goals
    first
      | (cases h; exact exact_scores_nonneg nfkd sm query messages hwE)
      | (cases h; exact regex_scores_nonneg nfkd eng sm query messages hwE hwR)
      | (cases h; exact hybrid_scores_nonneg nfkd eng sm query messages hwE hwR hhE hhR)
      | cases h

/-- Witness for `search_scores_nonneg` at a concrete call with one result. -/
theorem search_scores_nonneg_witness : (0 : ℚ) ≤ (((1 : ℚ), msgA) : ℚ × Msg).1 :=
  search_scores_nonneg id noneEngine smOne (str "a") [msgA] (some (str "exact"))
    (by rw [show modeWeight smOne (str "exact") = 1 from rfl]; norm_num)
    (by rw [show modeWeight smOne (str "regex") = 1 from rfl]; norm_num)
    (by rw [show smOne.hybridWeightExact.getD 1 = 1 from rfl]; norm_num)
    (by rw [show smOne.hybridWeightRegex.getD (12 / 10) = 12 / 10 from rfl]; norm_num)
    [((1 : ℚ), msgA)] (by with_unfolding_all rfl)
    ((1 : ℚ), msgA) (List.mem_singleton.mpr rfl)

/-- Claim C8 counterexample: with an exact-mode weight of -1 (a perfectly
loadable configuration), `search` returns a result carrying the negative
score -1. -/
theorem search_scores_nonneg_cex :
    search id noneEngine smNeg (str "a") [msgA] (some (str "exact")) =
      .ok [((-1 : ℚ), msgA)] ∧ ((-1 : ℚ) < 0) :=
  ⟨by with_unfolding_all rfl, by norm_num⟩

/-! ### Hybrid accumulator lemmas (claims C3 and C10) -/

theorem updateEntry_nil (key : List Char) (s : ℚ) (m : Msg) :
    updateEntry [] key s m = [(key, s, m)] := rfl

theorem updateEntry_cons (k : List Char) (s0 : ℚ) (m0 : Msg)
    (rest : List (List Char × ℚ × Msg)) (key : List Char) (s : ℚ) (m : Msg) :
    updateEntry ((k, s0, m0) :: rest) key s m =
      if k == key then (k, s0 + s, m) :: rest else (k, s0, m0) :: updateEntry rest key s m := rfl

theorem accScore_nil (n : List Char) : accScore [] n = 0 := rfl

theorem accMsg_nil (n : List Char) : accMsg [] n = none := rfl

theorem accScore_cons (a : List Char × ℚ × Msg) (t : List (List Char × ℚ × Msg))
    (n : List Char) :
    accScore (a :: t) n = if a.1 == n then a.2.1 else accScore t n := by
  by_cases h : (a.1 == n) = true
  · rw [if_pos h]
    simp [accScore, List.find?_cons_of_pos, h]
  · rw [if_neg h]
    simp only [accScore]
    rw [List.find?_cons_of_neg _ (by simpa using h)]

theorem accMsg_cons (a : List Char × ℚ × Msg) (t : List (List Char × ℚ × Msg))
    (n : List Char) :
    accMsg (a :: t) n = if a.1 == n then some a.2.2 else accMsg t n := by
  by_cases h : (a.1 == n) = true
  · rw [if_pos h]
    simp [accMsg, List.find?_cons_of_pos, h]
  · rw [if_neg h]
    simp only [accMsg]
    rw [List.find?_cons_of_neg _ (by simpa using h)]

theorem accScore_updateEntry_self (acc : List (List Char × ℚ × Msg)) (key : List Char)
    (s : ℚ) (m : Msg) :
    accScore (updateEntry acc key s m) key = accScore acc key + s := by
  induction acc with
  | nil => simp [updateEntry_nil, accScore_cons, accScore_nil]
  | cons a t ih =>
    obtain ⟨k, s0, m0⟩ := a
    rw [updateEntry_cons]
    by_cases h : (k == key) = true
    · rw [if_pos h, accScore_cons, accScore_cons]
      simp [h]
    · rw [if_neg h, accScore_cons, accScore_cons, if_neg h, if_neg h, ih]

theorem accScore_updateEntry_ne (acc : List (List Char × ℚ × Msg)) (key : List Char)
    (s : ℚ) (m : Msg) (n : List Char) (hne : key ≠ n) :
    accScore (updateEntry acc key s m) n = accScore acc n := by
  have hb : (key == n) = false := beq_eq_false_iff_ne.mpr hne
  induction acc with
  | nil => simp [updateEntry_nil, accScore_cons, accScore_nil, hb]
  | cons a t ih =>
    obtain ⟨k, s0, m0⟩ := a
    rw [updateEntry_cons]
    by_cases h : (k == key) = true
    · rw [if_pos h, accScore_cons, accScore_cons]
      have hk : k = key := eq_of_beq h
      rw [hk, hb]
      simp
    · rw [if_neg h, accScore_cons, accScore_cons, ih]

theorem accMsg_updateEntry_self (acc : List (List Char × ℚ × Msg)) (key : List Char)
    (s : ℚ) (m : Msg) :
    accMsg (updateEntry acc key s m) key = some m := by
  induction acc with
  | nil => simp [updateEntry_nil, accMsg_cons]
  | cons a t ih =>
    obtain ⟨k, s0, m0⟩ := a
    rw [updateEntry_cons]
    by_cases h : (k == key) = true
    · rw [if_pos h, accMsg_cons, if_pos h]
    · rw [if_neg h, accMsg_cons, if_neg h, ih]

theorem accMsg_updateEntry_ne (acc : List (List Char × ℚ × Msg)) (key : List Char)
    (s : ℚ) (m : Msg) (n : List Char) (hne : key ≠ n) :
    accMsg (updateEntry acc key s m) n = accMsg acc n := by
  have hb : (key == n) = false := beq_eq_false_iff_ne.mpr hne
  induction acc with
  | nil => simp [updateEntry_nil, accMsg_cons, accMsg_nil, hb]
  | cons a t ih =>
    obtain ⟨k, s0, m0⟩ := a
    rw [updateEntry_cons]
    by_cases h : (k == key) = true
    · rw [if_pos h, accMsg_cons, accMsg_cons]
      have hk : k = key := eq_of_beq h
      rw [hk, hb]
      simp
    · rw [if_neg h, accMsg_cons, accMsg_cons, ih]

theorem mem_updateEntry (acc : List (List Char × ℚ × Msg)) (key : List Char)
    (s : ℚ) (m : Msg) :
    ∀ e ∈ updateEntry acc key s m, (∃ s', e = (key, s', m)) ∨ e ∈ acc := by
  induction acc with
  | nil =>
    intro e he
    rw [updateEntry_nil] at he
    rcases List.mem_singleton.mp he with rfl
    exact Or.inl ⟨s, rfl⟩
  | cons a t ih =>
    obtain ⟨k, s0, m0⟩ := a
    intro e he
    rw [updateEntry_cons] at he
    by_cases h : (k == key) = true
    · rw [if_pos h] at he
      rcases List.mem_cons.mp he with rfl | h1
      · exact Or.inl ⟨s0 + s, by rw [eq_of_beq h]⟩
      · exact Or.inr (List.mem_cons_of_mem _ h1)
    · rw [if_neg h] at he
      rcases List.mem_cons.mp he with rfl | h1
      · exact Or.inr (List.mem_cons_self _ _)
      · rcases ih e h1 with h2 | h2
        · exact Or.inl h2
        · exact Or.inr (List.mem_cons_of_mem _ h2)

theorem keys_updateEntry (acc : List (List Char × ℚ × Msg)) (key : List Char)
    (s : ℚ) (m : Msg) :
    (updateEntry acc key s m).map Prod.fst =
      if key ∈ acc.map Prod.fst then acc.map Prod.fst
      else acc.map Prod.fst ++ [key] := by
  induction acc with
  | nil => simp [updateEntry_nil]
  | cons a t ih =>
    obtain ⟨k, s0, m0⟩ := a
    rw [updateEntry_cons]
    by_cases h : (k == key) = true
    · rw [if_pos h]
      have hk : k = key := eq_of_beq h
      rw [List.map_cons, List.map_cons, hk, if_pos (List.mem_cons_self key (t.map Prod.fst))]
    · rw [if_neg h]
      have hk : k ≠ key := by
        intro hh
        rw [hh] at h
        exact h (beq_self_eq_true key)
      rw [List.map_cons, List.map_cons, ih]
      by_cases hc : key ∈ t.map Prod.fst
      · rw [if_pos hc, if_pos (List.mem_cons_of_mem _ hc)]
      · have hnc : key ∉ k :: t.map Prod.fst := by
          intro hmem
          rcases List.mem_cons.mp hmem with h1 | h1
          · exact hk h1.symm
          · exact hc h1
        rw [if_neg hc, if_neg hnc, List.cons_append]

theorem nodup_keys_updateEntry (acc : List (List Char × ℚ × Msg)) (key : List Char)
    (s : ℚ) (m : Msg) (h : (acc.map Prod.fst).Nodup) :
    ((updateEntry acc key s m).map Prod.fst).Nodup := by
  rw [keys_updateEntry]
  by_cases hc : key ∈ acc.map Prod.fst
  · rw [if_pos hc]
    exact h
  · rw [if_neg hc]
    rw [List.nodup_append]
    refine ⟨h, List.nodup_singleton key, ?_⟩
    intro x hx hx2
    rcases List.mem_singleton.mp hx2 with rfl
    exact hc hx

theorem hybridAdd_score (w : ℚ) (acc : List (List Char × ℚ × Msg)) (r : ℚ × Msg)
    (n : List Char) (hn : n ≠ []) :
    accScore (hybridAdd w acc r) n =
      accScore acc n + (if r.2.name == n then w * r.1 else 0) := by
  simp only [hybridAdd]
  by_cases he : r.2.name.isEmpty = true
  · rw [if_pos he]
    have hnil : r.2.name = [] := List.isEmpty_iff.mp he
    have hb : (r.2.name == n) = false := by
      refine beq_eq_false_iff_ne.mpr ?_
      rw [hnil]
      exact fun hh => hn hh.symm
    rw [hb]
    simp
  · rw [if_neg he]
    by_cases hr : (r.2.name == n) = true
    · have hname : r.2.name = n := eq_of_beq hr
      rw [hr, if_pos rfl, hname, accScore_updateEntry_self]
    · have hname : r.2.name ≠ n := by
        intro hh
        rw [hh] at hr
        exact hr (beq_self_eq_true n)
      have hrb : (r.2.name == n) = false := by simpa using hr
      rw [accScore_updateEntry_ne _ _ _ _ _ hname, hrb]
      simp

theorem hybridAdd_msg (w : ℚ) (acc : List (List Char × ℚ × Msg)) (r : ℚ × Msg)
    (n : List Char) (hn : n ≠ []) :
    accMsg (hybridAdd w acc r) n = if r.2.name == n then some r.2 else accMsg acc n := by
  simp only [hybridAdd]
  by_cases he : r.2.name.isEmpty = true
  · rw [if_pos he]
    have hnil : r.2.name = [] := List.isEmpty_iff.mp he
    have hb : (r.2.name == n) = false := by
      refine beq_eq_false_iff_ne.mpr ?_
      rw [hnil]
      exact fun hh => hn hh.symm
    rw [hb]
    simp
  · rw [if_neg he]
    by_cases hr : (r.2.name == n) = true
    · have hname : r.2.name = n := eq_of_beq hr
      rw [hr, if_pos rfl, hname, accMsg_updateEntry_self]
    · have hname : r.2.name ≠ n := by
        intro hh
        rw [hh] at hr
        exact hr (beq_self_eq_true n)
      have hrb : (r.2.name == n) = false := by simpa using hr
      rw [accMsg_updateEntry_ne _ _ _ _ _ hname, hrb]
      simp

theorem goodAcc_nil : GoodAcc [] := by
  constructor
  · intro e he
    cases he
  · simp

theorem hybridAdd_good (w : ℚ) (acc : List (List Char × ℚ × Msg)) (r : ℚ × Msg)
    (h : GoodAcc acc) : GoodAcc (hybridAdd w acc r) := by
  simp only [hybridAdd]
  by_cases he : r.2.name.isEmpty = true
  · rw [if_pos he]
    exact h
  · rw [if_neg he]
    have hne : r.2.name ≠ [] := by
      intro hh
      exact he (by rw [hh]; rfl)
    constructor
    · intro e hmem
      rcases mem_updateEntry acc r.2.name (w * r.1) r.2 e hmem with ⟨s', rfl⟩ | h2
      · exact ⟨hne, rfl⟩
      · exact h.1 e h2
    · exact nodup_keys_updateEntry acc r.2.name _ _ h.2

theorem sumFor_nil (n : List Char) : sumFor [] n = 0 := rfl

theorem sumFor_cons (r : ℚ × Msg) (t : List (ℚ × Msg)) (n : List Char) :
    sumFor (r :: t) n = (if r.2.name == n then r.1 else 0) + sumFor t n := by
  simp only [sumFor, List.filter_cons]
  by_cases h : (r.2.name == n) = true
  · rw [if_pos h, if_pos h, List.map_cons, List.sum_cons]
  · rw [if_neg h, if_neg h]
    simp

theorem foldl_hybridAdd_score (w : ℚ) (n : List Char) (hn : n ≠ []) :
    ∀ (rs : List (ℚ × Msg)) (acc : List (List Char × ℚ × Msg)),
      accScore (rs.foldl (hybridAdd w) acc) n = accScore acc n + w * sumFor rs n := by
  intro rs
  induction rs with
  | nil =>
    intro acc
    rw [List.foldl_nil, sumFor_nil, mul_zero, add_zero]
  | cons r t ih =>
    intro acc
    rw [List.foldl_cons, ih, hybridAdd_score w acc r n hn, sumFor_cons]
    by_cases h : (r.2.name == n) = true
    · rw [if_pos h, if_pos h]
      ring
    · rw [if_neg h, if_neg h]
      ring

theorem foldl_hybridAdd_msg (w : ℚ) (n : List Char) (hn : n ≠ []) :
    ∀ (rs : List (ℚ × Msg)) (acc : List (List Char × ℚ × Msg)),
      accMsg (rs.foldl (hybridAdd w) acc) n =
        match lastWith n rs with
        | some m => some m
        | none => accMsg acc n := by
  intro rs
  induction rs with
  | nil =>
    intro acc
    rfl
  | cons r t ih =>
    intro acc
    rw [List.foldl_cons, ih]
    cases hl : lastWith n t with
    | some m => simp [lastWith, hl]
    | none =>
      simp only [lastWith, hl]
      rw [hybridAdd_msg w acc r n hn]
      by_cases hr : (r.2.name == n) = true
      · rw [if_pos hr]
        simp [hr]
      · rw [if_neg hr]
        simp [hr]

theorem foldl_hybridAdd_good (w : ℚ) :
    ∀ (rs : List (ℚ × Msg)) (acc : List (List Char × ℚ × Msg)),
      GoodAcc acc → GoodAcc (rs.foldl (hybridAdd w) acc) := by
  intro rs
  induction rs with
  | nil => intro acc h; exact h
  | cons r t ih =>
    intro acc h
    rw [List.foldl_cons]
    exact ih _ (hybridAdd_good w acc r h)

theorem accScore_accMsg_of_mem {acc : List (List Char × ℚ × Msg)} (h : GoodAcc acc) :
    ∀ e ∈ acc, accScore acc e.1 = e.2.1 ∧ accMsg acc e.1 = some e.2.2 := by
  induction acc with
  | nil =>
    intro e he
    cases he
  | cons a t ih =>
    intro e he
    rcases List.mem_cons.mp he with rfl | hmem
    · rw [accScore_cons, accMsg_cons, if_pos (beq_self_eq_true e.1),
        if_pos (beq_self_eq_true e.1)]
      exact ⟨rfl, rfl⟩
    · have hne : a.1 ≠ e.1 := by
        intro hh
        have h1 : a.1 ∉ t.map Prod.fst := (List.nodup_cons.mp h.2).1
        exact h1 (hh ▸ List.mem_map_of_mem Prod.fst hmem)
      have hb : (a.1 == e.1) = false := beq_eq_false_iff_ne.mpr hne
      rw [accScore_cons, accMsg_cons, hb]
      simp only [Bool.false_eq_true, if_false]
      exact ih ⟨fun x hx => h.1 x (List.mem_cons_of_mem a hx), (List.nodup_cons.mp h.2).2⟩ e hmem

theorem lastWith_append (n : List Char) :
    ∀ xs ys : List (ℚ × Msg), lastWith n (xs ++ ys) =
      match lastWith n ys with
      | some m => some m
      | none => lastWith n xs := by
  intro xs ys
  induction xs with
  | nil =>
    rw [List.nil_append]
    cases lastWith n ys <;> rfl
  | cons x t ih =>
    rw [List.cons_append]
    show (match lastWith n (t ++ ys) with
      | some m => some m
      | none => if x.2.name == n then some x.2 else none) = _
    rw [ih]
    cases hl : lastWith n ys <;> cases hl2 : lastWith n t <;> simp [lastWith, hl2]

theorem filter_name_length_one {l : List (ℚ × Msg)}
    (hp : List.Pairwise (fun a b : ℚ × Msg => a.2.name ≠ b.2.name) l) :
    ∀ r ∈ l, (l.filter (fun p => p.2.name == r.2.name)).length = 1 := by
  induction l with
  | nil =>
    intro r hr
    cases hr
  | cons a t ih =>
    intro r hr
    rcases List.mem_cons.mp hr with rfl | hmem
    · rw [List.filter_cons, if_pos (beq_self_eq_true r.2.name)]
      have hnil : t.filter (fun p => p.2.name == r.2.name) = [] := by
        rw [List.filter_eq_nil_iff]
        intro p hp'
        have hne := (List.pairwise_cons.mp hp).1 p hp'
        simp only [ne_eq]
        intro hb
        exact hne (eq_of_beq hb).symm
      rw [hnil]
      rfl
    · have hne : a.2.name ≠ r.2.name := (List.pairwise_cons.mp hp).1 r hmem
      rw [List.filter_cons, if_neg (by simp [beq_eq_false_iff_ne.mpr hne])]
      exact ih (List.pairwise_cons.mp hp).2 r hmem

theorem hybridExactAcc_good (nfkd : List Char → List Char) (sm : SearchManager)
    (q : List Char) (messages : List Msg) : GoodAcc (hybridExactAcc nfkd sm q messages) := by
  rw [hybridExactAcc]
  by_cases h : exactEnabled sm = true
  · rw [if_pos h]
    exact foldl_hybridAdd_good _ _ [] goodAcc_nil
  · rw [if_neg h]
    exact goodAcc_nil

theorem hybridBothAcc_good (nfkd : List Char → List Char) (eng : RegexEngine)
    (sm : SearchManager) (q : List Char) (messages : List Msg) :
    GoodAcc (hybridBothAcc nfkd eng sm q messages) := by
  rw [hybridBothAcc]
  by_cases h : regexEnabled sm = true
  · rw [if_pos h]
    exact foldl_hybridAdd_good _ _ _ (hybridExactAcc_good nfkd sm q messages)
  · rw [if_neg h]
    exact hybridExactAcc_good nfkd sm q messages

theorem hybridExactAcc_score (nfkd : List Char → List Char) (sm : SearchManager)
    (q : List Char) (messages : List Msg) (n : List Char) (hn : n ≠ []) :
    accScore (hybridExactAcc nfkd sm q messages) n =
      sm.hybridWeightExact.getD 1 *
        sumFor (if exactEnabled sm then _exact_search nfkd sm q messages else []) n := by
  rw [hybridExactAcc]
  by_cases h : exactEnabled sm = true
  · rw [if_pos h, if_pos h, foldl_hybridAdd_score _ n hn, accScore_nil, zero_add]
  · rw [if_neg h, if_neg h, accScore_nil, sumFor_nil, mul_zero]

theorem hybridBothAcc_score (nfkd : List Char → List Char) (eng : RegexEngine)
    (sm : SearchManager) (q : List Char) (messages : List Msg) (n : List Char) (hn : n ≠ []) :
    accScore (hybridBothAcc nfkd eng sm q messages) n =
      sm.hybridWeightExact.getD 1 *
        sumFor (if exactEnabled sm then _exact_search nfkd sm q messages else []) n +
      sm.hybridWeightRegex.getD (12 / 10) *
        sumFor (if regexEnabled sm then _regex_search nfkd eng sm q messages else []) n := by
  rw [hybridBothAcc]
  by_cases h : regexEnabled sm = true
  · rw [if_pos h, if_pos h, foldl_hybridAdd_score _ n hn,
      hybridExactAcc_score nfkd sm q messages n hn]
  · rw [if_neg h, if_neg h, hybridExactAcc_score nfkd sm q messages n hn, sumFor_nil,
      mul_zero, add_zero]

theorem hybridExactAcc_msg (nfkd : List Char → List Char) (sm : SearchManager)
    (q : List Char) (messages : List Msg) (n : List Char) (hn : n ≠ []) :
    accMsg (hybridExactAcc nfkd sm q messages) n =
      lastWith n (if exactEnabled sm then _exact_search nfkd sm q messages else []) := by
  rw [hybridExactAcc]
  by_cases h : exactEnabled sm = true
  · rw [if_pos h, if_pos h, foldl_hybridAdd_msg _ n hn]
    cases lastWith n (_exact_search nfkd sm q messages) <;> rfl
  · rw [if_neg h, if_neg h]
    rfl

theorem hybridBothAcc_msg (nfkd : List Char → List Char) (eng : RegexEngine)
    (sm : SearchManager) (q : List Char) (messages : List Msg) (n : List Char) (hn : n ≠ []) :
    accMsg (hybridBothAcc nfkd eng sm q messages) n =
      lastWith n ((if exactEnabled sm then _exact_search nfkd sm q messages else []) ++
        (if regexEnabled sm then _regex_search nfkd eng sm q messages else [])) := by
  rw [hybridBothAcc, lastWith_append]
  by_cases h : regexEnabled sm = true
  · rw [if_pos h, if_pos h, foldl_hybridAdd_msg _ n hn,
      hybridExactAcc_msg nfkd sm q messages n hn]
  · rw [if_neg h, if_neg h, hybridExactAcc_msg nfkd sm q messages n hn]
    cases lastWith n (if exactEnabled sm then _exact_search nfkd sm q messages else []) <;> rfl

theorem hybrid_search_mem_acc (nfkd : List Char → List Char) (eng : RegexEngine)
    (sm : SearchManager) (query : List Char) (messages : List Msg) {r : ℚ × Msg}
    (hr : r ∈ _hybrid_search nfkd eng sm query messages) :
    ∃ e ∈ hybridBothAcc nfkd eng sm (pyStrip query) messages, r = (e.2.1, e.2.2) := by
  simp only [_hybrid_search] at hr
  rw [mem_sortDesc] at hr
  rcases List.mem_map.mp hr with ⟨e, he, heq⟩
  exact ⟨e, he, heq.symm⟩

theorem hybrid_search_pairwise (nfkd : List Char → List Char) (eng : RegexEngine)
    (sm : SearchManager) (query : List Char) (messages : List Msg) :
    List.Pairwise (fun a b : ℚ × Msg => a.2.name ≠ b.2.name)
      (_hybrid_search nfkd eng sm query messages) := by
  have hgood := hybridBothAcc_good nfkd eng sm (pyStrip query) messages
  have hpair : List.Pairwise (fun a b : ℚ × Msg => a.2.name ≠ b.2.name)
      ((hybridBothAcc nfkd eng sm (pyStrip query) messages).map (fun e => (e.2.1, e.2.2))) := by
    rw [List.pairwise_map]
    have hnodup := hgood.2
    rw [List.Nodup, List.pairwise_map] at hnodup
    refine hnodup.imp_of_mem ?_
    intro a b ha hb hne
    show (a.2.1, a.2.2).2.name ≠ (b.2.1, b.2.2).2.name
    have h1 := hgood.1 a ha
    have h2 := hgood.1 b hb
    show a.2.2.name ≠ b.2.2.name
    rw [← h1.2, ← h2.2]
    exact hne
  exact ((sortDesc_perm _).pairwise_iff (by intro a b h; exact h.symm)).mpr hpair

/-! ### Claim C3 -/

/-- Claim C3: hybrid score accumulation.  The hybrid result has at most one
entry per distinct non-empty identity (entries have non-empty, pairwise
distinct names); each entry's score is `hybrid_weights.exact` (default 1)
times the sum of the exact scores for that identity plus
`hybrid_weights.regex` (default 1.2) times the sum of the regex scores,
each mode contributing only when enabled (a message found by both modes
sums both weighted contributions); messages with a missing or empty
identity never appear. -/
theorem hybrid_score_accumulation (nfkd : List Char → List Char) (eng : RegexEngine)
    (sm : SearchManager) (query : List Char) (messages : List Msg) :
    (∀ r ∈ _hybrid_search nfkd eng sm query messages, r.2.name ≠ []) ∧
    List.Pairwise (fun a b : ℚ × Msg => a.2.name ≠ b.2.name)
      (_hybrid_search nfkd eng sm query messages) ∧
    ∀ r ∈ _hybrid_search nfkd eng sm query messages,
      r.1 = sm.hybridWeightExact.getD 1 *
          sumFor
            (if exactEnabled sm then _exact_search nfkd sm (pyStrip query) messages else [])
            r.2.name +
        sm.hybridWeightRegex.getD (12 / 10) *
          sumFor
            (if regexEnabled sm then _regex_search nfkd eng sm (pyStrip query) messages
             else [])
            r.2.name := by
  have hgood := hybridBothAcc_good nfkd eng sm (pyStrip query) messages
  refine ⟨?_, hybrid_search_pairwise nfkd eng sm query messages, ?_⟩
  · intro r hr
    rcases hybrid_search_mem_acc nfkd eng sm query messages hr with ⟨e, he, rfl⟩
    have h1 := hgood.1 e he
    show e.2.2.name ≠ []
    rw [← h1.2]
    exact h1.1
  · intro r hr
    rcases hybrid_search_mem_acc nfkd eng sm query messages hr with ⟨e, he, rfl⟩
    have h1 := hgood.1 e he
    have h2 := (accScore_accMsg_of_mem hgood e he).1
    show e.2.1 = _
    rw [← h2]
    show accScore _ e.1 = _
    have hname : (e.2.1, e.2.2).2.name = e.1 := h1.2.symm
    rw [hname]
    exact hybridBothAcc_score nfkd eng sm (pyStrip query) messages e.1 h1.1

/-- Witness for `hybrid_score_accumulation` at a concrete hybrid call with
one exact-mode result. -/
theorem hybrid_score_accumulation_witness :
    (((1 : ℚ), msgA) : ℚ × Msg).1 =
      smOne.hybridWeightExact.getD 1 *
        sumFor
          (if exactEnabled smOne then _exact_search id smOne (pyStrip (str "a")) [msgA]
           else [])
          (((1 : ℚ), msgA) : ℚ × Msg).2.name +
      smOne.hybridWeightRegex.getD (12 / 10) *
        sumFor
          (if regexEnabled smOne then _regex_search id noneEngine smOne (pyStrip (str "a")) [msgA]
           else [])
          (((1 : ℚ), msgA) : ℚ × Msg).2.name :=
  (hybrid_score_accumulation id noneEngine smOne (str "a") [msgA]).2.2 ((1 : ℚ), msgA)
    (by with_unfolding_all decide)

/-! ### Claim C10 -/

/-- Claim C10: duplicate-identity merging.  Distinct message objects sharing
one non-empty identity are merged into a single hybrid entry (the identity
occurs exactly once in the result) whose score is the sum of all their
weighted contributions and whose message object is the last one encountered
during accumulation (the exact pass followed by the regex pass). -/
theorem hybrid_duplicate_identity_merging (nfkd : List Char → List Char) (eng : RegexEngine)
    (sm : SearchManager) (query : List Char) (messages : List Msg) :
    ∀ r ∈ _hybrid_search nfkd eng sm query messages,
      ((_hybrid_search nfkd eng sm query messages).filter
          (fun p => p.2.name == r.2.name)).length = 1 ∧
      r.1 = sm.hybridWeightExact.getD 1 *
          sumFor
            (if exactEnabled sm then _exact_search nfkd sm (pyStrip query) messages else [])
            r.2.name +
        sm.hybridWeightRegex.getD (12 / 10) *
          sumFor
            (if regexEnabled sm then _regex_search nfkd eng sm (pyStrip query) messages
             else [])
            r.2.name ∧
      some r.2 = lastWith r.2.name
        ((if exactEnabled sm then _exact_search nfkd sm (pyStrip query) messages else []) ++
          (if regexEnabled sm then _regex_search nfkd eng sm (pyStrip query) messages
           else [])) := by
  have hgood := hybridBothAcc_good nfkd eng sm (pyStrip query) messages
  intro r hr
  refine ⟨filter_name_length_one (hybrid_search_pairwise nfkd eng sm query messages) r hr,
    ?_, ?_⟩
  · rcases hybrid_search_mem_acc nfkd eng sm query messages hr with ⟨e, he, rfl⟩
    have h1 := hgood.1 e he
    have h2 := (accScore_accMsg_of_mem hgood e he).1
    show e.2.1 = _
    rw [← h2]
    show accScore _ e.1 = _
    have hname : (e.2.1, e.2.2).2.name = e.1 := h1.2.symm
    rw [hname]
    exact hybridBothAcc_score nfkd eng sm (pyStrip query) messages e.1 h1.1
  · rcases hybrid_search_mem_acc nfkd eng sm query messages hr with ⟨e, he, rfl⟩
    have h1 := hgood.1 e he
    have h2 := (accScore_accMsg_of_mem hgood e he).2
    show some e.2.2 = _
    rw [← h2]
    show _ = lastWith (e.2.1, e.2.2).2.name _
    have hname : (e.2.1, e.2.2).2.name = e.1 := h1.2.symm
    rw [hname]
    exact hybridBothAcc_msg nfkd eng sm (pyStrip query) messages e.1 h1.1

/-- Witness for `hybrid_duplicate_identity_merging`: two distinct messages
sharing the identity `m1` are merged into one entry carrying the summed
score and the later message object. -/
theorem hybrid_duplicate_identity_merging_witness :
    ((_hybrid_search id noneEngine smOne (str "a") [msgA, msgB]).filter
        (fun p => p.2.name == (((29 : ℚ) / 15, msgB) : ℚ × Msg).2.name)).length = 1 ∧
    (((29 : ℚ) / 15, msgB) : ℚ × Msg).1 =
      smOne.hybridWeightExact.getD 1 *
        sumFor
          (if exactEnabled smOne then _exact_search id smOne (pyStrip (str "a")) [msgA, msgB]
           else [])
          (((29 : ℚ) / 15, msgB) : ℚ × Msg).2.name +
      smOne.hybridWeightRegex.getD (12 / 10) *
        sumFor
          (if regexEnabled smOne then
            _regex_search id noneEngine smOne (pyStrip (str "a")) [msgA, msgB]
           else [])
          (((29 : ℚ) / 15, msgB) : ℚ × Msg).2.name ∧
    some (((29 : ℚ) / 15, msgB) : ℚ × Msg).2 = lastWith (((29 : ℚ) / 15, msgB) : ℚ × Msg).2.name
      ((if exactEnabled smOne then _exact_search id smOne (pyStrip (str "a")) [msgA, msgB]
        else []) ++
        (if regexEnabled smOne then
          _regex_search id noneEngine smOne (pyStrip (str "a")) [msgA, msgB]
         else [])) :=
  hybrid_duplicate_identity_merging id noneEngine smOne (str "a") [msgA, msgB]
    ((29 : ℚ) / 15, msgB) (by with_unfolding_all decide)

/-- Witness for `exact_search_empty_query` at a concrete call. -/
theorem exact_search_empty_query_witness :
    (_exact_search id smW [] [msgA]).Perm
      ([msgA].map (fun msg =>
        (modeWeight smW (str "exact") *
          (6 / 10 + 2 / 10 * (((lcLower (pyNormalize id msg.text)).length : ℚ) + 1) +
            2 / 10 * (if (lcLower (pyNormalize id msg.text)).isEmpty then 0 else 1)),
         msg))) :=
  exact_search_empty_query id smW [msgA] rfl
